import Mathlib

/-!
Shallow embedding of `src/mpm.py` (Magic Password Manager), the encrypted
record store behind the CLI in `main`.  Pure functions are translated
directly; the file system is an explicit association list from path to
stored rows; the third-party `cryptocode` cipher is modelled abstractly as
authenticated encryption (a token remembers its plaintext and the secret it
was encrypted under; `decrypt` with any other secret returns the failure
marker, as the HMAC check of `cryptocode.decrypt` makes it return `False`).
-/

namespace Mpm

/-- Models the output of `cryptocode.encrypt(plaintext, secret)`: an opaque
token from which `decrypt` can recover the plaintext exactly under the same
secret.  Salt and nonce freshness are irrelevant to plaintext recovery and
are not modelled. -/
structure Token where
  plain : String
  secret : String
deriving DecidableEq

/-- Models `cryptocode.encrypt(plaintext, secret)`. -/
def encrypt (plaintext : String) (secret : String) : Token :=
  ⟨plaintext, secret⟩

/-- Models `cryptocode.decrypt(token, secret)`: returns the plaintext under
the matching secret and `none` otherwise (Python returns `False` when the
embedded HMAC does not verify). -/
def decrypt (t : Token) (secret : String) : Option String :=
  if t.secret = secret then some t.plain else none

/-- A decrypted cell as `open_database` sees it: `some v` for a recovered
plaintext `v`, `none` for the `False` that `cryptocode.decrypt` returns on a
wrong secret. -/
abbrev Cell := Option String

/-- The file system: paths bound to stored rows of encrypted tokens.  A
write conses a fresh binding; reads see the newest one. -/
abbrev FS := List (String × List (List Token))

/-- Reads the current content of a path, `none` when no file exists
(`os.path.exists` false). -/
def fsRead (fs : FS) (path : String) : Option (List (List Token)) :=
  (fs.find? (fun p => p.1 == path)).map (fun p => p.2)

/-- Overwrites a path with new content (the `open(db_file, "w")` writes). -/
def fsWrite (fs : FS) (path : String) (content : List (List Token)) : FS :=
  (path, content) :: fs

/-- The canonical header row written by `create_empty_database`
(`row_header` in the source). -/
def row_header : List String :=
  ["index", "title", "username", "password"]

/-- Error raised by `create_empty_database`. -/
inductive CreateError where
  | fileExists
deriving DecidableEq

/-- Errors that escape `open_database`: `FileNotFoundError` when no backing
file exists, `ValueError` (master password incorrect) from the header
check, and the uncaught `IndexError` that `password_rows_decrypted[0][0]`
raises on a store with no first row or an empty first row. -/
inductive OpenError where
  | fileNotFound
  | indexError
  | wrongMasterPwd
deriving DecidableEq

/-- Translation of `create_empty_database(database, master_pwd)`: refuses to
overwrite an existing file, otherwise writes the single header row with
every cell encrypted. -/
def create_empty_database (fs : FS) (database : String) (master_pwd : String) :
    Except CreateError FS :=
  let db_file := database ++ ".mpmdb"
  if (fsRead fs db_file).isSome then
    Except.error CreateError.fileExists
  else
    Except.ok (fsWrite fs db_file [row_header.map (fun column => encrypt column master_pwd)])

/-- Translation of `open_database(database, master_pwd)`: reads all rows,
decrypts every cell, then checks `password_rows_decrypted[0][0] != "index"`.
Only that single first cell is compared; the comparison succeeds exactly
when the cell decrypted to the string `"index"` (a `False` cell never
equals a string).  Accessing `[0][0]` on an empty row list or an empty
first row raises `IndexError`. -/
def open_database (fs : FS) (database : String) (master_pwd : String) :
    Except OpenError (List (List Cell)) :=
  let db_file := database ++ ".mpmdb"
  match fsRead fs db_file with
  | none => Except.error OpenError.fileNotFound
  | some password_rows =>
    let password_rows_decrypted :=
      password_rows.map (fun row => row.map (fun column => decrypt column master_pwd))
    match password_rows_decrypted.head? with
    | none => Except.error OpenError.indexError
    | some row0 =>
      match row0.head? with
      | none => Except.error OpenError.indexError
      | some cell =>
        if cell ≠ some ("index") then Except.error OpenError.wrongMasterPwd
        else Except.ok password_rows_decrypted

/-- Translation of `save_database(database, master_pwd, rows)`: overwrites
the backing file with every cell of every row freshly encrypted. -/
def save_database (fs : FS) (database : String) (master_pwd : String)
    (rows : List (List String)) : FS :=
  fsWrite fs (database ++ ".mpmdb")
    (rows.map (fun row => row.map (fun column => encrypt column master_pwd)))

theorem decrypt_encrypt (plaintext secret : String) :
    decrypt (encrypt plaintext secret) secret = some plaintext := by
  simp [decrypt, encrypt]

theorem decrypt_encrypt_ne (plaintext s1 s2 : String) (h : s2 ≠ s1) :
    decrypt (encrypt plaintext s1) s2 = none := by
  simp [decrypt, encrypt]
  exact fun hc => absurd hc.symm h

theorem fsRead_fsWrite (fs : FS) (path : String) (content : List (List Token)) :
    fsRead (fsWrite fs path content) path = some content := by
  simp [fsRead, fsWrite, List.find?]

/-- Helper: after `save_database` under a secret, opening under the same
secret decrypts every cell back to `some` of the saved string; the header
check passes as soon as the first cell of the first saved row is the string
`"index"`. -/
theorem open_database_save_database (fs : FS) (database master_pwd : String)
    (rows : List (List String)) (row0 : List String)
    (hhead : rows.head? = some row0) (hcell : row0.head? = some ("index")) :
    open_database (save_database fs database master_pwd rows) database master_pwd
      = Except.ok (rows.map (fun row => row.map some)) := by
  cases rows with
  | nil => simp at hhead
  | cons r rest =>
    simp only [List.head?_cons, Option.some.injEq] at hhead
    subst hhead
    cases r with
    | nil => simp at hcell
    | cons c0 tail0 =>
      simp only [List.head?_cons, Option.some.injEq] at hcell
      subst hcell
      simp [open_database, save_database, fsRead_fsWrite, decrypt_encrypt,
        Function.comp, List.map_map]

/-- Translation of the `add` branch of `main` (src/mpm.py:99-101): the new
index is `str(len(rows))` computed before the append, and the new record is
appended at the end.  The generated password enters as a parameter. -/
def add_rows (rows : List (List String)) (title username password : String) :
    List (List String) :=
  rows ++ [[toString rows.length, title, username, password]]

/-- Translation of the re-index loop of the `remove` branch
(src/mpm.py:124-126): `for index, row in enumerate(rows): if index > 0:
row[0] = str(index)`.  The accumulator is the enumeration index.  Setting
cell 0 of an empty row is a no-op here where Python would raise; rows in
this development always have four fields. -/
def reindexFrom : Nat → List (List String) → List (List String)
  | _, [] => []
  | index, row :: rest =>
    (if index > 0 then row.set 0 (toString index) else row) :: reindexFrom (index + 1) rest

/-- The whole re-index loop, starting the enumeration at 0. -/
def reindex (rows : List (List String)) : List (List String) :=
  reindexFrom 0 rows

/-- Translation of the `remove` branch of `main` (src/mpm.py:118-126): the
guard is `args.index not in range(1, len(rows))`, i.e. failure (`none`,
modelling the `sys.exit` before any mutation) unless `1 <= index <
len(rows)`; on success the row at that position is popped and the remaining
rows re-indexed. -/
def remove_rows (rows : List (List String)) (index : Int) : Option (List (List String)) :=
  if 1 ≤ index ∧ index < (rows.length : Int) then
    some (reindex (rows.eraseIdx index.toNat))
  else
    none

/-- An entry-manager operation as issued by the CLI. -/
inductive Op where
  | add (title username password : String)
  | remove (index : Int)

/-- Applies one operation to the in-memory rows.  A failing `remove` exits
the process before `save_database`, so the persisted rows are unchanged;
that is modelled by returning the rows unaltered. -/
def applyOp (rows : List (List String)) : Op → List (List String)
  | Op.add t u pw => add_rows rows t u pw
  | Op.remove i => (remove_rows rows i).getD rows

/-- Applies a sequence of operations in order. -/
def runOps (rows : List (List String)) (ops : List Op) : List (List String) :=
  ops.foldl applyOp rows

/-- The in-memory rows of a freshly created vault: only the header. -/
def created_rows : List (List String) :=
  [row_header]

/-- The rows of `l` carry head cells `toString k`, `toString (k+1)`, ... in
order. -/
def IndexedFrom : Nat → List (List String) → Prop
  | _, [] => True
  | k, row :: rest => row.head? = some (toString k) ∧ IndexedFrom (k + 1) rest

/-- The re-index invariant of the spec: every entry record (header
excluded) has its `index` field equal to the decimal string of its 1-based
position among the entries. -/
def EntriesIndexed (rows : List (List String)) : Prop :=
  IndexedFrom 1 (rows.drop 1)

/-- Induction invariant tying the claims together: the header is first,
every row has exactly 4 fields, and the entries are correctly indexed. -/
def VaultInv (rows : List (List String)) : Prop :=
  rows.head? = some row_header ∧ (∀ r ∈ rows, r.length = 4) ∧ EntriesIndexed rows

theorem head?_set_zero (row : List String) (v : String) (h : row ≠ []) :
    (row.set 0 v).head? = some v := by
  cases row with
  | nil => exact absurd rfl h
  | cons a l => rfl

theorem tail_set_zero (row : List String) (v : String) :
    (row.set 0 v).tail = row.tail := by
  cases row <;> rfl

theorem indexedFrom_append (l : List (List String)) (k : Nat) (row : List String)
    (h : IndexedFrom k l) (hrow : row.head? = some (toString (k + l.length))) :
    IndexedFrom k (l ++ [row]) := by
  induction l generalizing k with
  | nil => exact ⟨by simpa using hrow, trivial⟩
  | cons r rest ih =>
    obtain ⟨h1, h2⟩ := h
    refine ⟨h1, ih (k + 1) h2 ?_⟩
    simpa [Nat.add_comm, Nat.add_assoc, Nat.add_left_comm] using hrow

theorem indexedFrom_reindexFrom (l : List (List String)) (k : Nat) (hk : 1 ≤ k)
    (hne : ∀ r ∈ l, r ≠ []) : IndexedFrom k (reindexFrom k l) := by
  induction l generalizing k with
  | nil => trivial
  | cons r rest ih =>
    have hkpos : k > 0 := hk
    simp only [reindexFrom, if_pos hkpos]
    refine ⟨head?_set_zero r (toString k) (hne r (by simp)) , ?_⟩
    exact ih (k + 1) (Nat.le_succ_of_le hk) (fun s hs => hne s (by simp [hs]))

theorem reindexFrom_map_tail (l : List (List String)) (k : Nat) :
    (reindexFrom k l).map List.tail = l.map List.tail := by
  induction l generalizing k with
  | nil => rfl
  | cons r rest ih =>
    simp only [reindexFrom, List.map_cons, ih]
    by_cases h : k > 0
    · simp [if_pos h, tail_set_zero]
    · simp [if_neg h]

theorem map_eraseIdx_comm {α β : Type} (f : α → β) :
    ∀ (l : List α) (i : Nat), (l.eraseIdx i).map f = (l.map f).eraseIdx i := by
  intro l
  induction l with
  | nil => intro i; rfl
  | cons a rest ih =>
    intro i
    cases i with
    | zero => rfl
    | succ n => simp [List.eraseIdx_cons_succ, ih]

theorem length_set_mem (l : List (List String)) (h : ∀ r ∈ l, r.length = 4)
    (k : Nat) : ∀ r ∈ reindexFrom k l, r.length = 4 := by
  induction l generalizing k with
  | nil => intro r hr; simp [reindexFrom] at hr
  | cons a rest ih =>
    intro r hr
    simp only [reindexFrom] at hr
    rcases List.mem_cons.mp hr with h1 | h2
    · subst h1
      by_cases hk : k > 0
      · simpa [if_pos hk] using h a (by simp)
      · simpa [if_neg hk] using h a (by simp)
    · exact ih (fun s hs => h s (by simp [hs])) (k + 1) r h2

theorem vaultInv_created : VaultInv created_rows := by
  refine ⟨rfl, ?_, trivial⟩
  intro r hr
  simp only [created_rows, List.mem_singleton] at hr
  subst hr
  rfl

theorem vaultInv_add (rows : List (List String)) (t u pw : String)
    (h : VaultInv rows) : VaultInv (add_rows rows t u pw) := by
  obtain ⟨hhead, hlen, hidx⟩ := h
  cases rows with
  | nil => simp at hhead
  | cons r rest =>
    simp only [List.head?_cons, Option.some.injEq] at hhead
    subst hhead
    refine ⟨by simp [add_rows], ?_, ?_⟩
    · intro s hs
      simp only [add_rows, List.mem_append, List.mem_singleton] at hs
      rcases hs with hs | hs
      · exact hlen s hs
      · subst hs; rfl
    · show IndexedFrom 1 ((add_rows (row_header :: rest) t u pw).drop 1)
      simp only [add_rows, List.cons_append, List.drop_succ_cons, List.drop_zero]
      refine indexedFrom_append rest 1 _ hidx ?_
      simp [Nat.add_comm]

theorem remove_rows_eq_some (rows rows' : List (List String)) (i : Int)
    (h : remove_rows rows i = some rows') :
    1 ≤ i ∧ i < (rows.length : Int) ∧ rows' = reindex (rows.eraseIdx i.toNat) := by
  by_cases hc : 1 ≤ i ∧ i < (rows.length : Int)
  · refine ⟨hc.1, hc.2, ?_⟩
    simp only [remove_rows, if_pos hc, Option.some.injEq] at h
    exact h.symm
  · simp [remove_rows, if_neg hc] at h

theorem vaultInv_remove (rows : List (List String)) (i : Int)
    (h : VaultInv rows) : VaultInv ((remove_rows rows i).getD rows) := by
  cases hr : remove_rows rows i with
  | none => simpa using h
  | some rows' =>
    obtain ⟨hi1, hi2, heq⟩ := remove_rows_eq_some rows rows' i hr
    obtain ⟨hhead, hlen, _⟩ := h
    cases rows with
    | nil => simp at hhead
    | cons r rest =>
      simp only [List.head?_cons, Option.some.injEq] at hhead
      subst hhead
      obtain ⟨n, hn⟩ : ∃ n, i.toNat = n + 1 := by
        refine ⟨i.toNat - 1, ?_⟩
        omega
      have hrest_len : ∀ s ∈ rest.eraseIdx n, s.length = 4 := fun s hs =>
        hlen s (List.mem_cons_of_mem _ ((rest.eraseIdx_sublist n).subset hs))
      have hform : rows' = row_header :: reindexFrom 1 (rest.eraseIdx n) := by
        rw [heq, hn, List.eraseIdx_cons_succ, reindex, reindexFrom]
        rfl
      subst hform
      refine ⟨rfl, ?_, ?_⟩
      · intro s hs
        rcases List.mem_cons.mp hs with h1 | h2
        · subst h1; rfl
        · exact length_set_mem _ hrest_len 1 s h2
      · show IndexedFrom 1 (reindexFrom 1 (rest.eraseIdx n))
        refine indexedFrom_reindexFrom _ 1 (le_refl 1) ?_
        intro s hs hnil
        have := hrest_len s hs
        rw [hnil] at this
        simp at this

theorem vaultInv_applyOp (rows : List (List String)) (op : Op)
    (h : VaultInv rows) : VaultInv (applyOp rows op) := by
  cases op with
  | add t u pw => exact vaultInv_add rows t u pw h
  | remove i => exact vaultInv_remove rows i h

theorem vaultInv_runOps (ops : List Op) (rows : List (List String))
    (h : VaultInv rows) : VaultInv (runOps rows ops) := by
  induction ops generalizing rows with
  | nil => simpa [runOps] using h
  | cons op rest ih =>
    have := ih (applyOp rows op) (vaultInv_applyOp rows op h)
    simpa [runOps, List.foldl_cons] using this

/-- One file-system effect of `save_database`, for reasoning about how the
function persists: it opens the live backing file in mode `"w"` (which
truncates it) and then writes the encrypted rows one by one.  A
rename-into-place step is included in the vocabulary so its absence can be
stated. -/
inductive FileOp where
  | openWriteTruncate (path : String)
  | writeRow (cells : List Token)
  | renameInto (src dst : String)
deriving DecidableEq

/-- Recognizes a rename effect. -/
def isRename : FileOp → Bool
  | FileOp.renameInto _ _ => true
  | _ => false

/-- The exact sequence of file effects of `save_database(database,
master_pwd, rows)` (src/mpm.py:211-215): `open(db_file, "w")` on the live
path, then one `writerow` of encrypted cells per row.  No temporary file,
no rename. -/
def save_database_trace (database master_pwd : String) (rows : List (List String)) :
    List FileOp :=
  FileOp.openWriteTruncate (database ++ ".mpmdb") ::
    rows.map (fun row => FileOp.writeRow (row.map (fun column => encrypt column master_pwd)))

/-- Translation of `db_file.split(".")[0]` from `get_database_names`
(src/mpm.py:143): the segment of the filename before its FIRST dot.
Filenames are modelled as character lists to reason about their dots. -/
def beforeFirstDot : List Char → List Char
  | [] => []
  | c :: rest => if c = '.' then [] else c :: beforeFirstDot rest

/-- Translation of `get_database_names` (src/mpm.py:142-144) applied to the
list of filenames the glob returned: each name is the part of the filename
before the first dot. -/
def get_database_names (db_files : List (List Char)) : List (List Char) :=
  db_files.map beforeFirstDot

/-- Python `string.ascii_lowercase`: the 26 characters from code 97. -/
def ascii_lowercase : List Char :=
  (List.range 26).map (fun n => Char.ofNat (97 + n))

/-- Python `string.ascii_uppercase`: the 26 characters from code 65. -/
def ascii_uppercase : List Char :=
  (List.range 26).map (fun n => Char.ofNat (65 + n))

/-- Python `string.digits`: the 10 characters from code 48. -/
def digits : List Char :=
  (List.range 10).map (fun n => Char.ofNat (48 + n))

/-- Python `string.punctuation`: the 32 ASCII punctuation characters, codes
33-47, 58-64, 91-96 and 123-126. -/
def punctuation : List Char :=
  ((List.range 128).filter (fun n =>
    decide ((33 ≤ n ∧ n ≤ 47) ∨ (58 ≤ n ∧ n ≤ 64) ∨ (91 ≤ n ∧ n ≤ 96) ∨ (123 ≤ n ∧ n ≤ 126)))).map
    (fun n => Char.ofNat n)

/-- The length bump of `create_random_password` (src/mpm.py:249-250): a
requested length below `MINIMUM_LENGTH = 5` becomes 5. -/
def effective_length (password_length : Int) : Int :=
  if password_length < 5 then 5 else password_length

/-- The effective length as a natural number (it is always at least 5). -/
def effectiveNat (password_length : Int) : Nat :=
  (effective_length password_length).toNat

/-- Source `count_characters_per_group = password_length // 4`, computed on
the bumped length. -/
def count_characters_per_group (password_length : Int) : Nat :=
  effectiveNat password_length / 4

/-- Source `count_rest = password_length % 4`, computed on the bumped
length. -/
def count_rest (password_length : Int) : Nat :=
  effectiveNat password_length % 4

/-- A possible return of Python `random.sample(population, k)`: `k` values,
pairwise distinct, all drawn from the population. -/
def IsSample (population : List Char) (k : Nat) (s : List Char) : Prop :=
  s.length = k ∧ s.Nodup ∧ ∀ c ∈ s, c ∈ population

instance (population : List Char) (k : Nat) (s : List Char) : Decidable (IsSample population k s) :=
  inferInstanceAs (Decidable (s.length = k ∧ s.Nodup ∧ ∀ c ∈ s, c ∈ population))

/-- Deterministic refinement of `random.sample(population, k)`: it returns
some `k`-element selection exactly when `k` does not exceed the population
size, and raises `ValueError` (here `none`) otherwise.  Which `k` elements
come back is irrelevant to the verified properties; the full
nondeterministic behaviour is captured by `IsSample`. -/
def sample (population : List Char) (k : Nat) : Option (List Char) :=
  if k ≤ population.length then some (population.take k) else none

/-- Translation of `create_random_password` (src/mpm.py:247-264): bump the
length to at least 5, then draw `base + rest` lower-case characters, and
`base` characters from each of upper-case, digits and punctuation, in that
order; the final shuffle does not change which characters are present.  A
failing draw aborts the call (Python propagates the `ValueError` of
`random.sample`). -/
def create_random_password (password_length : Int) : Option (List Char) :=
  (sample ascii_lowercase
      (count_characters_per_group password_length + count_rest password_length)).bind fun a =>
  (sample ascii_uppercase (count_characters_per_group password_length)).bind fun b =>
  (sample digits (count_characters_per_group password_length)).bind fun c =>
  (sample punctuation (count_characters_per_group password_length)).map fun d =>
  a ++ b ++ c ++ d

theorem remove_rows_eq_none_iff (rows : List (List String)) (i : Int) :
    remove_rows rows i = none ↔ ¬(1 ≤ i ∧ i < (rows.length : Int)) := by
  by_cases hc : 1 ≤ i ∧ i < (rows.length : Int)
  · unfold remove_rows
    rw [if_pos hc]
    simp [hc]
  · unfold remove_rows
    rw [if_neg hc]
    simp [hc]

theorem create_ok_inversion (fs : FS) (database master_pwd : String) (fs' : FS)
    (h : create_empty_database fs database master_pwd = Except.ok fs') :
    fs' = fsWrite fs (database ++ ".mpmdb")
      [row_header.map (fun column => encrypt column master_pwd)] := by
  by_cases hc : (fsRead fs (database ++ ".mpmdb")).isSome
  · simp [create_empty_database, hc] at h
  · simp [create_empty_database, hc] at h
    exact h.symm

/-- C1 (counterexample): a vault whose stored header decrypts to
`["index", "X", "Y", "Z"]` — not the canonical header — is opened
successfully, because `open_database` compares only the first cell against
`"index"`.  The store is reachable: it is `save_database` applied to those
rows. -/
theorem open_full_header_check_cex :
    open_database (save_database [] ("v") ("pw") [["index", "X", "Y", "Z"]]) ("v") ("pw")
      = Except.ok [[some ("index"), some ("X"), some ("Y"), some ("Z")]]
    ∧ ["index", "X", "Y", "Z"] ≠ row_header := by
  exact ⟨rfl, by decide⟩

/-- C1 (amended): opening a vault created under `s1` with any `s2 ≠ s1`
fails with the wrong-master-password error; and in general `open_database`
fails with that error exactly when the FIRST cell of the decrypted header
row differs from `"index"` — the three remaining header cells are never
compared. -/
theorem open_wrong_secret_first_cell_only :
    (∀ (fs : FS) (database s1 s2 : String) (fs' : FS), s2 ≠ s1 →
      create_empty_database fs database s1 = Except.ok fs' →
      open_database fs' database s2 = Except.error OpenError.wrongMasterPwd)
    ∧ (∀ (fs : FS) (database secret : String) (rows : List (List Token))
        (row0 : List Token) (cell : Token),
        fsRead fs (database ++ ".mpmdb") = some rows →
        rows.head? = some row0 → row0.head? = some cell →
        (open_database fs database secret = Except.error OpenError.wrongMasterPwd
          ↔ decrypt cell secret ≠ some ("index"))) := by
  constructor
  · intro fs database s1 s2 fs' hne hok
    have hfs' := create_ok_inversion fs database s1 fs' hok
    subst hfs'
    have hd : ∀ p, decrypt (encrypt p s1) s2 = none := fun p => decrypt_encrypt_ne p s1 s2 hne
    simp [open_database, fsRead_fsWrite, row_header, hd]
  · intro fs database secret rows row0 cell hfs hrow hcell
    cases rows with
    | nil => simp at hrow
    | cons r rest =>
      simp only [List.head?_cons, Option.some.injEq] at hrow
      subst hrow
      cases r with
      | nil => simp at hcell
      | cons c tail =>
        simp only [List.head?_cons, Option.some.injEq] at hcell
        subst hcell
        by_cases hd : decrypt c secret = some ("index")
        · simp [open_database, hfs, hd]
        · simp [open_database, hfs, hd]

/-- C1 (witness for the amended theorem): both parts applied at concrete
inputs. -/
theorem open_wrong_secret_first_cell_only_witness :
    open_database
        (fsWrite [] ("v.mpmdb")
          [[encrypt ("index") ("a"), encrypt ("title") ("a"),
            encrypt ("username") ("a"), encrypt ("password") ("a")]]) ("v") ("b")
      = Except.error OpenError.wrongMasterPwd
    ∧ (open_database (fsWrite [] ("v.mpmdb") [[encrypt ("zzz") ("pw")]]) ("v") ("pw")
        = Except.error OpenError.wrongMasterPwd
      ↔ decrypt (encrypt ("zzz") ("pw")) ("pw") ≠ some ("index")) := by
  constructor
  · exact open_wrong_secret_first_cell_only.1 [] ("v") ("a") ("b") _ (by decide) (by rfl)
  · exact open_wrong_secret_first_cell_only.2 (fsWrite [] ("v.mpmdb") [[encrypt ("zzz") ("pw")]])
      ("v") ("pw") _ _ _ (by rfl) (by rfl) (by rfl)

/-- C2: after a successful `create_empty_database`, opening under the same
secret returns exactly one row, the plaintext canonical header, and no
entry rows (each recovered cell is `some` of the plaintext). -/
theorem create_then_open_header_only (fs : FS) (database master_pwd : String)
    (h : fsRead fs (database ++ ".mpmdb") = none) :
    ∃ fs', create_empty_database fs database master_pwd = Except.ok fs'
      ∧ open_database fs' database master_pwd
          = Except.ok [[some ("index"), some ("title"), some ("username"), some ("password")]] := by
  refine ⟨fsWrite fs (database ++ ".mpmdb")
    [row_header.map (fun column => encrypt column master_pwd)], ?_, ?_⟩
  · simp [create_empty_database, h]
  · simp [open_database, fsRead_fsWrite, row_header, decrypt_encrypt]

/-- C2 (witness): the concrete scenario of the spec, on an empty file
system. -/
theorem create_then_open_header_only_witness :
    ∃ fs', create_empty_database [] ("v") ("pw") = Except.ok fs'
      ∧ open_database fs' ("v") ("pw")
          = Except.ok [[some ("index"), some ("title"), some ("username"), some ("password")]] :=
  create_then_open_header_only [] ("v") ("pw") (by rfl)

/-- C4: `add` on a header plus `N` entries returns the input rows with
exactly one record appended at the end, whose index field is the decimal
string of `N + 1` and whose other fields are the given title, the given
username, and the generated password. -/
theorem add_appends_indexed_record (header : List String) (entries : List (List String))
    (title username password : String) :
    add_rows (header :: entries) title username password
      = (header :: entries) ++ [[toString (entries.length + 1), title, username, password]] := by
  simp [add_rows]

/-- C5: on a header plus `N` entries, `remove` fails (and the process exits
before any save, leaving the rows unchanged) exactly when the requested
position is outside `[1, N]`; in particular position 99 fails whenever
there are fewer than 99 entries. -/
theorem remove_out_of_range_iff (header : List String) (entries : List (List String))
    (i : Int) :
    (remove_rows (header :: entries) i = none ↔ ¬(1 ≤ i ∧ i ≤ (entries.length : Int)))
    ∧ ((entries.length : Int) < 99 → remove_rows (header :: entries) 99 = none)
    ∧ (remove_rows (header :: entries) i = none →
        applyOp (header :: entries) (Op.remove i) = header :: entries) := by
  refine ⟨?_, ?_, ?_⟩
  · rw [remove_rows_eq_none_iff]
    simp only [List.length_cons]
    omega
  · intro hsmall
    rw [remove_rows_eq_none_iff]
    simp only [List.length_cons]
    omega
  · intro hnone
    simp [applyOp, hnone]

/-- C5 (witness): on a freshly created vault (0 entries), removing at
position 0 fails, removing at position 99 fails, and a failed removal
leaves the rows unchanged. -/
theorem remove_out_of_range_iff_witness :
    remove_rows [row_header] 0 = none
    ∧ remove_rows [row_header] 99 = none
    ∧ applyOp [row_header] (Op.remove 0) = [row_header] := by
  have h := remove_out_of_range_iff row_header [] 0
  have h0 : remove_rows [row_header] 0 = none := h.1.mpr (by decide)
  exact ⟨h0, h.2.1 (by decide), h.2.2 h0⟩

/-- C6 (counterexample): an existing but empty backing file (a store with
no rows at all) makes `open_database` raise the bare `IndexError` of
`password_rows_decrypted[0][0]` — there is no distinct corrupt-store error
kind anywhere in the code, and `main` only reports such an error as a
generic unexpected error. -/
theorem open_empty_store_index_error_cex :
    open_database (fsWrite [] ("v.mpmdb") []) ("v") ("pw")
      = Except.error OpenError.indexError := by
  rfl

/-- C6 (amended): whenever the backing file exists but holds no rows,
`open_database` fails with the low-level index error, never with the
wrong-password error and never successfully; no `CorruptStore` kind
exists. -/
theorem open_empty_store_index_error (fs : FS) (database master_pwd : String)
    (h : fsRead fs (database ++ ".mpmdb") = some []) :
    open_database fs database master_pwd = Except.error OpenError.indexError := by
  simp [open_database, h]

/-- C6 (witness): the amended theorem applied to a concrete empty store. -/
theorem open_empty_store_index_error_witness :
    open_database (fsWrite [] ("x.mpmdb") []) ("x") ("secret")
      = Except.error OpenError.indexError :=
  open_empty_store_index_error (fsWrite [] ("x.mpmdb") []) ("x") ("secret") (by rfl)

/-- C7 (counterexample): the exact effect sequence of a concrete
`save_database` call opens the LIVE backing file for truncating write and
contains no rename step — there is no temporary file in the trace. -/
theorem save_trace_truncates_live_file_cex :
    save_database_trace ("v") ("pw") [row_header]
      = [FileOp.openWriteTruncate ("v.mpmdb"),
         FileOp.writeRow [encrypt ("index") ("pw"), encrypt ("title") ("pw"),
           encrypt ("username") ("pw"), encrypt ("password") ("pw")]] := by
  rfl

/-- C7 (amended): every `save_database` persists by truncating and
rewriting the live backing file in place: its first file effect opens
`<name>.mpmdb` itself for writing, and no effect of the call is a rename;
an interruption mid-save can therefore leave a half-written vault. -/
theorem save_trace_no_rename (database master_pwd : String) (rows : List (List String)) :
    (save_database_trace database master_pwd rows).head?
        = some (FileOp.openWriteTruncate (database ++ ".mpmdb"))
    ∧ (save_database_trace database master_pwd rows).all (fun op => !isRename op) = true := by
  constructor
  · rfl
  · rw [List.all_eq_true]
    intro op hop
    simp only [save_database_trace, List.mem_cons, List.mem_map] at hop
    rcases hop with rfl | ⟨row, _, rfl⟩ <;> rfl

/-- C8 (counterexample): a persisted vault file `a.b.mpmdb` — a vault whose
name contains a dot — is listed as `a`, not as `a.b`: the code truncates at
the first dot instead of stripping the fixed extension from the end. -/
theorem get_database_names_dot_name_cex :
    get_database_names [("a.b.mpmdb").toList] = [("a").toList]
    ∧ ("a").toList ≠ ("a.b").toList := by
  exact ⟨rfl, by decide⟩

theorem beforeFirstDot_append (name rest : List Char) (h : ('.') ∉ name) :
    beforeFirstDot (name ++ ('.') :: rest) = name := by
  induction name with
  | nil => simp [beforeFirstDot]
  | cons c cs ih =>
    have hc : c ≠ ('.') := fun hc => h (by simp [hc])
    simp only [List.cons_append, beforeFirstDot, if_neg hc]
    exact congrArg (fun l => c :: l) (ih (fun hm => h (by simp [hm])))

/-- C8 (amended): each listed name is the part of the matching filename
before its FIRST dot; for a vault name containing no dot this coincides
with stripping the extension, so only dot-free names are listed
faithfully. -/
theorem get_database_names_strips_at_first_dot (name rest : List Char)
    (h : ('.') ∉ name) :
    get_database_names [name ++ ('.') :: rest] = [name] := by
  simp only [get_database_names, List.map_cons, List.map_nil]
  rw [beforeFirstDot_append name rest h]

/-- C8 (witness): the amended theorem applied to the filename `ab.mpmdb`. -/
theorem get_database_names_strips_at_first_dot_witness :
    get_database_names [("ab").toList ++ ('.') :: ("mpmdb").toList] = [("ab").toList] :=
  get_database_names_strips_at_first_dot (("ab").toList) (("mpmdb").toList) (by decide)

/-- C3: starting from a freshly created vault, after any sequence of add
and remove operations every entry record has its index field equal to the
decimal string of its 1-based position, the header stays first, a
save-then-open cycle returns exactly the in-memory rows (so the invariant
survives persistence), and a successful removal preserves the relative
order of the surviving entries (their non-index fields, in order, are the
old ones with the removed entry erased). -/
theorem reindex_invariant_preserved (ops : List Op) (fs : FS) (database master_pwd : String) :
    EntriesIndexed (runOps created_rows ops)
    ∧ (runOps created_rows ops).head? = some row_header
    ∧ open_database (save_database fs database master_pwd (runOps created_rows ops))
        database master_pwd
        = Except.ok ((runOps created_rows ops).map (fun row => row.map some))
    ∧ (∀ (rows rows' : List (List String)) (i : Int), remove_rows rows i = some rows' →
        rows'.map List.tail = (rows.map List.tail).eraseIdx i.toNat) := by
  obtain ⟨hhead, hlen, hidx⟩ := vaultInv_runOps ops created_rows vaultInv_created
  refine ⟨hidx, hhead, ?_, ?_⟩
  · exact open_database_save_database fs database master_pwd _ row_header hhead (by rfl)
  · intro rows rows' i h
    obtain ⟨_, _, heq⟩ := remove_rows_eq_some rows rows' i h
    subst heq
    rw [reindex, reindexFrom_map_tail]
    exact map_eraseIdx_comm List.tail rows i.toNat

/-- C3 (witness): the invariant after one add, and the order-preservation
conjunct at a concrete successful removal. -/
theorem reindex_invariant_preserved_witness :
    EntriesIndexed (runOps created_rows [Op.add ("t") ("u") ("p")])
    ∧ [row_header].map List.tail
        = ([row_header, [("1"), ("t"), ("u"), ("p")]].map List.tail).eraseIdx ((1 : Int)).toNat := by
  have h := reindex_invariant_preserved [Op.add ("t") ("u") ("p")] [] ("v") ("pw")
  exact ⟨h.1, h.2.2.2 [row_header, [("1"), ("t"), ("u"), ("p")]] [row_header] 1 (by rfl)⟩

theorem countP_isSample_full (population : List Char) (k : Nat) (s : List Char)
    (h : IsSample population k s) :
    s.countP (fun c => decide (c ∈ population)) = k := by
  obtain ⟨hlen, _, hsub⟩ := h
  rw [← hlen]
  exact List.countP_eq_length.mpr (fun c hc => decide_eq_true (hsub c hc))

theorem countP_isSample_zero (population other : List Char) (k : Nat) (s : List Char)
    (h : IsSample other k s) (hdisj : ∀ c ∈ other, c ∉ population) :
    s.countP (fun c => decide (c ∈ population)) = 0 := by
  refine List.countP_eq_zero.mpr ?_
  intro c hc
  simp only [decide_eq_true_eq]
  exact hdisj c (h.2.2 c hc)

theorem upper_disjoint_lower : ∀ c ∈ ascii_uppercase, c ∉ ascii_lowercase := by decide

theorem digits_disjoint_lower : ∀ c ∈ digits, c ∉ ascii_lowercase := by decide

theorem punct_disjoint_lower : ∀ c ∈ punctuation, c ∉ ascii_lowercase := by decide

theorem lower_disjoint_upper : ∀ c ∈ ascii_lowercase, c ∉ ascii_uppercase := by decide

theorem digits_disjoint_upper : ∀ c ∈ digits, c ∉ ascii_uppercase := by decide

theorem punct_disjoint_upper : ∀ c ∈ punctuation, c ∉ ascii_uppercase := by decide

theorem lower_disjoint_digits : ∀ c ∈ ascii_lowercase, c ∉ digits := by decide

theorem upper_disjoint_digits : ∀ c ∈ ascii_uppercase, c ∉ digits := by decide

theorem punct_disjoint_digits : ∀ c ∈ punctuation, c ∉ digits := by decide

theorem lower_disjoint_punct : ∀ c ∈ ascii_lowercase, c ∉ punctuation := by decide

theorem upper_disjoint_punct : ∀ c ∈ ascii_uppercase, c ∉ punctuation := by decide

theorem digits_disjoint_punct : ∀ c ∈ digits, c ∉ punctuation := by decide

/-- C9: the effective length is the requested length bumped to a minimum of
5, and whatever `random.sample` draws and however the final shuffle
permutes them, the generated password has exactly the effective length,
with `base + remainder` lower-case characters and `base` characters from
each of the upper-case, digit and punctuation classes, where
`base = length // 4` and `remainder = length % 4`. -/
theorem password_length_distribution (password_length : Int)
    (sl su sd sp pw : List Char)
    (hsl : IsSample ascii_lowercase
      (count_characters_per_group password_length + count_rest password_length) sl)
    (hsu : IsSample ascii_uppercase (count_characters_per_group password_length) su)
    (hsd : IsSample digits (count_characters_per_group password_length) sd)
    (hsp : IsSample punctuation (count_characters_per_group password_length) sp)
    (hperm : List.Perm pw (sl ++ su ++ sd ++ sp)) :
    effective_length password_length = max 5 password_length
    ∧ 5 ≤ effectiveNat password_length
    ∧ pw.length = effectiveNat password_length
    ∧ pw.countP (fun c => decide (c ∈ ascii_lowercase))
        = count_characters_per_group password_length + count_rest password_length
    ∧ pw.countP (fun c => decide (c ∈ ascii_uppercase))
        = count_characters_per_group password_length
    ∧ pw.countP (fun c => decide (c ∈ digits))
        = count_characters_per_group password_length
    ∧ pw.countP (fun c => decide (c ∈ punctuation))
        = count_characters_per_group password_length := by
  have heff : effective_length password_length = max 5 password_length := by
    unfold effective_length
    split <;> omega
  have h5 : 5 ≤ effectiveNat password_length := by
    unfold effectiveNat effective_length
    split <;> omega
  refine ⟨heff, h5, ?_, ?_, ?_, ?_, ?_⟩
  · have hl := hperm.length_eq
    simp only [List.length_append, hsl.1, hsu.1, hsd.1, hsp.1] at hl
    rw [hl]
    unfold count_characters_per_group count_rest
    omega
  · rw [List.Perm.countP_eq _ hperm]
    simp only [List.countP_append]
    rw [countP_isSample_full _ _ _ hsl,
      countP_isSample_zero _ _ _ _ hsu upper_disjoint_lower,
      countP_isSample_zero _ _ _ _ hsd digits_disjoint_lower,
      countP_isSample_zero _ _ _ _ hsp punct_disjoint_lower]
    omega
  · rw [List.Perm.countP_eq _ hperm]
    simp only [List.countP_append]
    rw [countP_isSample_full _ _ _ hsu,
      countP_isSample_zero _ _ _ _ hsl lower_disjoint_upper,
      countP_isSample_zero _ _ _ _ hsd digits_disjoint_upper,
      countP_isSample_zero _ _ _ _ hsp punct_disjoint_upper]
    omega
  · rw [List.Perm.countP_eq _ hperm]
    simp only [List.countP_append]
    rw [countP_isSample_full _ _ _ hsd,
      countP_isSample_zero _ _ _ _ hsl lower_disjoint_digits,
      countP_isSample_zero _ _ _ _ hsu upper_disjoint_digits,
      countP_isSample_zero _ _ _ _ hsp punct_disjoint_digits]
    omega
  · rw [List.Perm.countP_eq _ hperm]
    simp only [List.countP_append]
    rw [countP_isSample_full _ _ _ hsp,
      countP_isSample_zero _ _ _ _ hsl lower_disjoint_punct,
      countP_isSample_zero _ _ _ _ hsu upper_disjoint_punct,
      countP_isSample_zero _ _ _ _ hsd digits_disjoint_punct]
    omega

/-- C9 (witness): the distribution at requested length 10 with concrete
draws (4 lower-case, 2 upper-case, 2 digits, 2 punctuation characters). -/
theorem password_length_distribution_witness :
    IsSample ascii_lowercase (count_characters_per_group 10 + count_rest 10)
      ['a', 'b', 'c', 'd']
    ∧ (['a', 'b', 'c', 'd'] ++ ['A', 'B'] ++ ['0', '1'] ++ ['!', '#']).length
        = effectiveNat 10
    ∧ (['a', 'b', 'c', 'd'] ++ ['A', 'B'] ++ ['0', '1'] ++ ['!', '#']).countP
        (fun c => decide (c ∈ ascii_lowercase))
        = count_characters_per_group 10 + count_rest 10
    ∧ (['a', 'b', 'c', 'd'] ++ ['A', 'B'] ++ ['0', '1'] ++ ['!', '#']).countP
        (fun c => decide (c ∈ digits))
        = count_characters_per_group 10 := by
  have h := password_length_distribution 10 (['a', 'b', 'c', 'd']) (['A', 'B'])
    (['0', '1']) (['!', '#']) (['a', 'b', 'c', 'd'] ++ ['A', 'B'] ++ ['0', '1'] ++ ['!', '#'])
    (by decide) (by decide) (by decide) (by decide) (List.Perm.refl _)
  exact ⟨by decide, h.2.2.1, h.2.2.2.1, h.2.2.2.2.2.1⟩

/-- C10: for every requested length of 44 or more the generator fails
instead of returning a password — the deterministic model returns `none`
(Python propagates the `ValueError` of `random.sample`) and indeed NO
possible draw of `length // 4` distinct digits exists, since only 10 digit
characters are available; for every requested length up to 43 the
generation succeeds. -/
theorem password_length_44_fails (password_length : Int) :
    (44 ≤ password_length →
      create_random_password password_length = none
      ∧ ∀ s, ¬ IsSample digits (count_characters_per_group password_length) s)
    ∧ (password_length ≤ 43 → (create_random_password password_length).isSome = true) := by
  constructor
  · intro h44
    have he : effectiveNat password_length = password_length.toNat := by
      unfold effectiveNat effective_length
      split <;> omega
    have hcnt : 11 ≤ count_characters_per_group password_length := by
      unfold count_characters_per_group
      rw [he]
      omega
    have hlen10 : digits.length = 10 := by rfl
    have hd : sample digits (count_characters_per_group password_length) = none := by
      unfold sample
      rw [if_neg (by omega)]
    constructor
    · unfold create_random_password
      cases ha : sample ascii_lowercase
          (count_characters_per_group password_length + count_rest password_length) with
      | none => simp [ha]
      | some a =>
        cases hb : sample ascii_uppercase (count_characters_per_group password_length) with
        | none => simp [ha, hb]
        | some b => simp [ha, hb, hd]
    · rintro s ⟨hlen, hnd, hsub⟩
      have hle : s.length ≤ digits.length :=
        (List.subperm_of_subset hnd (fun c hc => hsub c hc)).length_le
      omega
  · intro h43
    have h5 : 5 ≤ effectiveNat password_length := by
      unfold effectiveNat effective_length
      split <;> omega
    have h43e : effectiveNat password_length ≤ 43 := by
      unfold effectiveNat effective_length
      split <;> omega
    have hcnt : count_characters_per_group password_length ≤ 10 := by
      unfold count_characters_per_group
      omega
    have hrest : count_rest password_length ≤ 3 := by
      unfold count_rest
      omega
    have hlow : ascii_lowercase.length = 26 := by rfl
    have hup : ascii_uppercase.length = 26 := by rfl
    have hdig : digits.length = 10 := by rfl
    have hpun : punctuation.length = 32 := by rfl
    have h1 : count_characters_per_group password_length + count_rest password_length
        ≤ ascii_lowercase.length := by omega
    have h2 : count_characters_per_group password_length ≤ ascii_uppercase.length := by omega
    have h3 : count_characters_per_group password_length ≤ digits.length := by omega
    have h4 : count_characters_per_group password_length ≤ punctuation.length := by omega
    unfold create_random_password sample
    rw [if_pos h1, if_pos h2, if_pos h3, if_pos h4]
    rfl

/-- C10 (witness): at requested length 44 the generator fails; at the
default length 10 it succeeds. -/
theorem password_length_44_fails_witness :
    create_random_password 44 = none ∧ (create_random_password 10).isSome = true :=
  ⟨((password_length_44_fails 44).1 (by decide)).1, (password_length_44_fails 10).2 (by decide)⟩

end Mpm
